import Mathlib

/-!
Verification of the rag-chat support-ticket system.

Shallow embedding of `app/parser/email_parser.py`, `app/sync/master_sync.py`
and `app/sync/slave_sync.py`.  Strings are modelled as `List Char` (the
parser side) or `String` (the sync side); machine clocks are passed as
explicit arguments; the filesystem is an explicit set of paths; network and
disk outcomes are explicit parameters.
-/

namespace RagChat

/-! ### Character classes of the Python regexes

`\s`, `\w`, `\d` as used by `re` on `str` patterns, restricted to the
character repertoire the program handles: ASCII plus the CJK unified
ideographs of the Chinese labels.  `re.IGNORECASE` is irrelevant here
because no pattern contains a cased literal letter. -/

def isSpaceChar (c : Char) : Bool :=
  c = ' ' || c = '\t' || c = '\n' || c = '\r' || c = '\x0b' || c = '\x0c'

def isWordChar (c : Char) : Bool :=
  c.isAlphanum || c = '_' || (0x4E00 ≤ c.toNat && c.toNat ≤ 0x9FFF)

def isDateChar (c : Char) : Bool := c.isDigit || c = '-'

def isTimeChar (c : Char) : Bool := c.isDigit || c = ':'

/-- Python `str.strip()`: drop whitespace from both ends. -/
def pyStrip (s : List Char) : List Char :=
  ((s.dropWhile isSpaceChar).reverse.dropWhile isSpaceChar).reverse

/-! ### A small backtracking regex engine

Exactly the constructs used by the eight patterns of
`EmailParser.__init__`: literals, character classes, concatenation,
alternation, greedy star / plus over a character class, lazy plus over a
character class, lookahead, the `$` anchor and one capture group.
`mrun` returns every way the expression can match a prefix of the input,
in Python backtracking priority order; `research` scans start positions
left to right like `re.search` and yields group 1 of the first match. -/

inductive RE where
  | eps : RE
  | lit : Char → RE
  | cls : (Char → Bool) → RE
  | cat : RE → RE → RE
  | alt : RE → RE → RE
  | starCls : (Char → Bool) → RE
  | plusClsG : (Char → Bool) → RE
  | plusClsL : (Char → Bool) → RE
  | look : RE → RE
  | eos : RE
  | grp : RE → RE

/-- Suffixes left after a greedy `p*` munch, longest consumption first. -/
def greedyRests (p : Char → Bool) : List Char → List (List Char)
  | [] => [[]]
  | c :: cs => if p c then greedyRests p cs ++ [c :: cs] else [c :: cs]

/-- Suffixes left after a lazy `p*` munch, shortest consumption first. -/
def lazyRests (p : Char → Bool) : List Char → List (List Char)
  | [] => [[]]
  | c :: cs => (c :: cs) :: (if p c then lazyRests p cs else [])

/-- A match outcome: the group-1 capture so far, and the unconsumed rest. -/
abbrev MRes := Option (List Char) × List Char

def mrun : RE → Option (List Char) → List Char → List MRes
  | .eps, cap, s => [(cap, s)]
  | .lit c, cap, s =>
      match s with
      | [] => []
      | x :: xs => if x = c then [(cap, xs)] else []
  | .cls p, cap, s =>
      match s with
      | [] => []
      | x :: xs => if p x then [(cap, xs)] else []
  | .cat a b, cap, s => (mrun a cap s).flatMap fun r => mrun b r.1 r.2
  | .alt a b, cap, s => mrun a cap s ++ mrun b cap s
  | .starCls p, cap, s => (greedyRests p s).map fun r => (cap, r)
  | .plusClsG p, cap, s =>
      (match s with
       | [] => []
       | c :: cs => if p c then greedyRests p cs else []).map fun r => (cap, r)
  | .plusClsL p, cap, s =>
      (match s with
       | [] => []
       | c :: cs => if p c then lazyRests p cs else []).map fun r => (cap, r)
  | .look a, cap, s =>
      match mrun a cap s with
      | [] => []
      | (c1, _) :: _ => [(c1, s)]
  | .eos, cap, s => if s = [] ∨ s = ['\n'] then [(cap, s)] else []
  | .grp a, cap, s =>
      (mrun a cap s).map fun r => (some (s.take (s.length - r.2.length)), r.2)

/-- Try to match `r` anchored at the start of `s`; give group 1. -/
def searchAt (r : RE) (s : List Char) : Option (List Char) :=
  match mrun r none s with
  | [] => none
  | (cap, _) :: _ => some (cap.getD [])

/-- `re.search`: first start position (left to right) where `r` matches. -/
def research (r : RE) : List Char → Option (List Char)
  | [] => searchAt r []
  | c :: rest =>
      match searchAt r (c :: rest) with
      | some g => some g
      | none => research r rest

/-! ### The eight field patterns of `EmailParser.__init__` -/

def litStr (s : List Char) : RE := s.foldr (fun c r => .cat (.lit c) r) .eps

def reCat (l : List RE) : RE := l.foldr .cat .eps

/-- The class `[:：]` (ASCII and fullwidth colon). -/
def colonCls : RE := .cls fun c => c = ':' || c = '：'

def anyCh : Char → Bool := fun _ => true

def nonSpace : Char → Bool := fun c => !isSpaceChar c

def ticketPat : RE :=
  reCat [litStr "工单编号".data, colonCls, .starCls isSpaceChar,
         .grp (.plusClsG isWordChar), .starCls isSpaceChar]

def customerPat : RE :=
  reCat [litStr "客户名称".data, colonCls, .starCls isSpaceChar,
         .grp (.plusClsG anyCh), .starCls isSpaceChar]

def contactPat : RE :=
  reCat [litStr "联系方式".data, colonCls, .starCls isSpaceChar,
         .grp (.plusClsG anyCh), .starCls isSpaceChar]

def problemPat : RE :=
  reCat [litStr "问题描述".data, colonCls, .starCls isSpaceChar,
         .grp (.plusClsL anyCh),
         .look (.alt (reCat [.lit '\n', .plusClsG nonSpace, .lit ':']) .eos)]

def priorityPat : RE :=
  reCat [litStr "优先级".data, colonCls, .starCls isSpaceChar,
         .grp (.plusClsL anyCh), .starCls isSpaceChar]

def statusPat : RE :=
  reCat [litStr "状态".data, colonCls, .starCls isSpaceChar,
         .grp (.plusClsL anyCh), .starCls isSpaceChar]

def assignedPat : RE :=
  reCat [litStr "指派给".data, colonCls, .starCls isSpaceChar,
         .grp (.plusClsL anyCh), .starCls isSpaceChar]

def createdPat : RE :=
  reCat [litStr "创建时间".data, colonCls, .starCls isSpaceChar,
         .grp (reCat [.plusClsG isDateChar, .plusClsG isSpaceChar,
                      .plusClsG isTimeChar]),
         .starCls isSpaceChar]

/-! ### Timestamps and `strftime` -/

/-- A wall-clock instant, standing for `datetime.now()`. -/
structure Timestamp where
  year : Nat
  month : Nat
  day : Nat
  hour : Nat
  minute : Nat
  second : Nat
deriving DecidableEq

/-- The ranges `datetime` guarantees for its components. -/
def Timestamp.Valid (t : Timestamp) : Prop :=
  1000 ≤ t.year ∧ t.year < 10000 ∧ 1 ≤ t.month ∧ t.month ≤ 12 ∧
  1 ≤ t.day ∧ t.day ≤ 31 ∧ t.hour < 24 ∧ t.minute < 60 ∧ t.second < 60

instance (t : Timestamp) : Decidable t.Valid := by
  unfold Timestamp.Valid; infer_instance

def digitChar (n : Nat) : Char := Char.ofNat (48 + n)

/-- Fixed-width zero-padded decimal, as `strftime` prints a component. -/
def padNum : Nat → Nat → List Char
  | 0, _ => []
  | w + 1, n => padNum w (n / 10) ++ [digitChar (n % 10)]

/-- `strftime("%Y%m%d%H%M%S")`. -/
def fmtTs (t : Timestamp) : List Char :=
  padNum 4 t.year ++ padNum 2 t.month ++ padNum 2 t.day ++
    padNum 2 t.hour ++ padNum 2 t.minute ++ padNum 2 t.second

/-- `strftime("%Y-%m-%d %H:%M:%S")`. -/
def fmtDisplay (t : Timestamp) : List Char :=
  padNum 4 t.year ++ '-' :: padNum 2 t.month ++ '-' :: padNum 2 t.day ++
    ' ' :: padNum 2 t.hour ++ ':' :: padNum 2 t.minute ++
    ':' :: padNum 2 t.second

/-! ### `EmailParser.extract_ticket_info` -/

structure TicketInfo where
  ticket_id : List Char
  customer_name : List Char
  contact_info : List Char
  problem_desc : List Char
  priority : List Char
  status : List Char
  assigned_to : List Char
  created_time : List Char
deriving DecidableEq

/-- The per-field step of the extraction loop: `re.search` with
`DOTALL | IGNORECASE`, stripped capture on a hit, empty string on a miss. -/
def fieldExtract (r : RE) (body : List Char) : List Char :=
  match research r body with
  | some g => pyStrip g
  | none => []

/-- `extract_ticket_info(email_body)`; the clock behind `datetime.now()`
is passed explicitly. -/
def extract_ticket_info (now : Timestamp) (body : List Char) : TicketInfo :=
  let tid := fieldExtract ticketPat body
  { ticket_id := if tid = [] then "TEMP_".data ++ fmtTs now else tid
    customer_name := fieldExtract customerPat body
    contact_info := fieldExtract contactPat body
    problem_desc := fieldExtract problemPat body
    priority := fieldExtract priorityPat body
    status := fieldExtract statusPat body
    assigned_to := fieldExtract assignedPat body
    created_time := fieldExtract createdPat body }

/-! ### Attachment classification and `parse_email` -/

/-- The path component after the last `/` (posix `basename`). -/
def lastComponent (p : List Char) : List Char :=
  (p.reverse.takeWhile (fun c => c ≠ '/')).reverse

/-- The extension part of `os.path.splitext(p)` (posix): the final
`.`-suffix of the last path component, unless the component up to that
dot is all dots (hidden files such as `.bashrc` have no extension). -/
def splitextExt (p : List Char) : List Char :=
  let base := lastComponent p
  let r := base.reverse
  let afterR := r.takeWhile (fun c => c ≠ '.')
  if afterR.length = r.length then []
  else
    let pre := (r.drop (afterR.length + 1)).reverse
    if pre.all (fun c => c = '.') then [] else '.' :: afterR.reverse

def imageExtensions : List (List Char) :=
  [".jpg".data, ".jpeg".data, ".png".data, ".gif".data, ".bmp".data,
   ".tiff".data]

/-- `EmailParser._is_image_file`.  `Char.toLower` only lowers ASCII while
Python `str.lower()` is Unicode aware; the allowlist is pure ASCII and no
non-ASCII character lowercases into its letters, so the boolean agrees. -/
def is_image_file (file_path : List Char) : Bool :=
  imageExtensions.contains ((splitextExt file_path).map Char.toLower)

/-- The fields of the `email_details` dict that the parser reads. -/
structure EmailDetails where
  subject : List Char
  sender : List Char
  sender_name : List Char
  received_time : List Char
  body : List Char
  html_body : List Char
deriving DecidableEq

structure ParsedData where
  email : EmailDetails
  ticket : TicketInfo
  attachments : List (List Char)
  parsed_time : List Char
  has_images : Bool
deriving DecidableEq

/-- `EmailParser.parse_email(email_details, attachments=None)`. -/
def parse_email (now : Timestamp) (email_details : EmailDetails)
    (attachments : Option (List (List Char))) : ParsedData :=
  { email := email_details
    ticket := extract_ticket_info now email_details.body
    attachments := attachments.getD []
    parsed_time := fmtDisplay now
    has_images := (attachments.getD []).any is_image_file }

/-! ### Filesystem model and `save_to_file`

The filesystem is the duplicate-free list of existing file paths.
Writing with mode `w` creates or truncates; `os.rename` moves its source
to its destination and raises when the source does not exist — inside the
attachment loop that exception is caught, logged and skipped, so the
model records the failed source paths instead. -/

abbrev FS := List (List Char)

/-- Create the file at `p` (no-op when it already exists). -/
def fsAdd (fs : FS) (p : List Char) : FS := if p ∈ fs then fs else p :: fs

/-- `os.path.join` for the shapes the parser builds. -/
def pjoin (a b : List Char) : List Char := a ++ '/' :: b

/-- The `for attachment_path in parsed_data["attachments"]` loop of
`save_to_file`: move each source into `attachments_dir`, collecting the
sources whose `os.rename` raised (caught and logged in the source). -/
def moveLoop (attachments_dir : List Char) :
    FS → List (List Char) → FS × List (List Char)
  | fs, [] => (fs, [])
  | fs, a :: rest =>
      if a ∈ fs then
        let fs1 := fsAdd (fs.erase a) (pjoin attachments_dir (lastComponent a))
        let r := moveLoop attachments_dir fs1 rest
        (r.1, r.2)
      else
        let r := moveLoop attachments_dir fs rest
        (r.1, a :: r.2)

/-- The three `open(..., "w")` writes of `save_to_file`: the JSON record,
the raw body, and the HTML body when present (Python truthiness of the
html string). -/
def metaWrites (fs : FS) (parsed_data : ParsedData)
    (ticket_dir : List Char) : FS :=
  let fs1 := fsAdd fs (pjoin ticket_dir "email_data.json".data)
  let fs2 := fsAdd fs1 (pjoin ticket_dir "email_body.txt".data)
  if parsed_data.email.html_body ≠ [] then
    fsAdd fs2 (pjoin ticket_dir "email_body.html".data)
  else fs2

/-- `EmailParser.save_to_file(parsed_data, output_dir)`: returns the new
filesystem, the returned `ticket_dir`, and the attachment sources whose
move failed. -/
def save_to_file (fs : FS) (parsed_data : ParsedData)
    (output_dir : List Char) : FS × List Char × List (List Char) :=
  let ticket_dir := pjoin output_dir parsed_data.ticket.ticket_id
  let fs3 := metaWrites fs parsed_data ticket_dir
  if parsed_data.attachments ≠ [] then
    let attachments_dir := pjoin ticket_dir "attachments".data
    let r := moveLoop attachments_dir fs3 parsed_data.attachments
    (r.1, ticket_dir, r.2)
  else (fs3, ticket_dir, [])

/-! ### String primitives for the sync side

Python `str` operations on `List Char`: lexicographic comparison by code
point, `str.split(sep)`, `startswith` and `endswith`.  These are the
kernel-computable counterparts of the operations `MasterSync` uses on
file names. -/

/-- Python string `<`: lexicographic by code point. -/
def lexLt : List Char → List Char → Bool
  | [], [] => false
  | [], _ :: _ => true
  | _ :: _, [] => false
  | a :: as, b :: bs => if a < b then true else if b < a then false else lexLt as bs

/-- Python `s.split(sep)` for a one-character separator. -/
def splitOnChar (sep : Char) : List Char → List (List Char)
  | [] => [[]]
  | c :: cs =>
      let r := splitOnChar sep cs
      if c = sep then [] :: r
      else
        match r with
        | h :: t => (c :: h) :: t
        | [] => [[c]]

/-- Python `s.startswith(pre)`. -/
def startsWithL : List Char → List Char → Bool
  | [], _ => true
  | _ :: _, [] => false
  | p :: ps, c :: cs => p = c && startsWithL ps cs

/-- Python `s.endswith(suf)`. -/
def endsWithL (suf s : List Char) : Bool :=
  startsWithL suf.reverse s.reverse

/-! ### `MasterSync`

The sync payload is an opaque serialized string, so `json.dumps` is the
identity and `len(json.dumps(data))` is its length.  The data directory
is the list of file names it contains; the clock behind `datetime.now()`
is an explicit argument. -/

structure SyncRecord where
  last_sync : List Char
  data : List Char
  file_path : List Char
deriving DecidableEq

structure MasterState where
  data_directory : List Char
  synced_data : List (List Char × SyncRecord)
  slaves : List (List Char)
  files : List (List Char)
deriving DecidableEq

def initMaster (data_directory : List Char) : MasterState :=
  ⟨data_directory, [], [], []⟩

/-- Python dict assignment `d[k] = v`: replace in place, or append. -/
def assocUpdate (l : List (List Char × SyncRecord)) (k : List Char)
    (v : SyncRecord) : List (List Char × SyncRecord) :=
  if k ∈ l.map Prod.fst then
    l.map fun e => if e.1 = k then (k, v) else e
  else l ++ [(k, v)]

/-- Python dict lookup `d.get(k)`. -/
def assocLookup (l : List (List Char × SyncRecord)) (k : List Char) :
    Option SyncRecord :=
  match l.find? (fun e => e.1 = k) with
  | some e => some e.2
  | none => none

/-- The response dict of `handle_slave_sync`. -/
structure Ack where
  status : List Char
  message : List Char
  timestamp : Option (List Char)
  received_data_size : Option Nat
deriving DecidableEq

/-- `MasterSync.handle_slave_sync(slave_id, data)`.  `ts` is
`datetime.now().strftime("%Y%m%d_%H%M%S")`; `writeRes` is the outcome
of the file write (the one failure point guarded by the `try`), carrying
the exception text on failure.  On failure nothing has been recorded and
the error ack with `str(e)` appended to its message is returned. -/
def handle_slave_sync (st : MasterState) (slave_id data ts : List Char)
    (writeRes : Except (List Char) Unit) : MasterState × Ack :=
  let filename := "sync_".data ++ slave_id ++ "_".data ++ ts ++ ".json".data
  let data_file := st.data_directory ++ "/".data ++ filename
  match writeRes with
  | .ok _ =>
    ({ st with
        files := if filename ∈ st.files then st.files else st.files ++ [filename]
        synced_data := assocUpdate st.synced_data slave_id ⟨ts, data, data_file⟩
        slaves := if slave_id ∈ st.slaves then st.slaves
                  else st.slaves ++ [slave_id] },
     ⟨"success".data, "同步成功".data, some ts, some data.length⟩)
  | .error e =>
    (st, ⟨"error".data, "同步失败: ".data ++ e, none, none⟩)

/-- `MasterSync.get_synced_slaves` (returns a copy of the list). -/
def get_synced_slaves (st : MasterState) : List (List Char) := st.slaves

/-- `MasterSync.get_slave_data(slave_id)`. -/
def get_slave_data (st : MasterState) (slave_id : List Char) :
    Option SyncRecord :=
  assocLookup st.synced_data slave_id

/-! #### `clean_old_data` -/

/-- A calendar date, for `datetime.now() - timedelta(days=n)`. -/
structure Date where
  year : Nat
  month : Nat
  day : Nat
deriving DecidableEq

def isLeap (y : Nat) : Bool := (y % 4 = 0 && y % 100 ≠ 0) || y % 400 = 0

def daysInMonth (y m : Nat) : Nat :=
  if m = 2 then (if isLeap y then 29 else 28)
  else if m = 4 || m = 6 || m = 9 || m = 11 then 30
  else 31

def predDay (d : Date) : Date :=
  if 1 < d.day then ⟨d.year, d.month, d.day - 1⟩
  else if 1 < d.month then
    ⟨d.year, d.month - 1, daysInMonth d.year (d.month - 1)⟩
  else ⟨d.year - 1, 12, 31⟩

/-- `date - timedelta(days=n)`. -/
def subDays (d : Date) : Nat → Date
  | 0 => d
  | n + 1 => subDays (predDay d) n

/-- `strftime("%Y%m%d")`. -/
def fmtDate (d : Date) : List Char :=
  padNum 4 d.year ++ padNum 2 d.month ++ padNum 2 d.day

/-- The deletion test of `clean_old_data`: a `sync_*.json` name whose
date token `filename.split("_")[2]` exists and is lexicographically
below the cutoff. -/
def delPred (cutoff : List Char) (f : List Char) : Bool :=
  startsWithL "sync_".data f && endsWithL ".json".data f &&
    (match (splitOnChar '_' f).get? 2 with
     | some tok => lexLt tok cutoff
     | none => false)

/-- The file name has enough `_`-separated parts for
`filename.split("_")[2]` not to raise (true for every name
`handle_slave_sync` writes). -/
def wfSyncName (f : List Char) : Bool :=
  !(startsWithL "sync_".data f && endsWithL ".json".data f) ||
    ((splitOnChar '_' f).get? 2).isSome

/-- Delete the first in-memory record whose `file_path` is the deleted
file (the `for ... if data["file_path"] == file_path: del ...; break`
loop). -/
def evictFirst (l : List (List Char × SyncRecord)) (path : List Char) :
    List (List Char × SyncRecord) :=
  match l with
  | [] => []
  | e :: rest =>
      if e.2.file_path = path then rest else e :: evictFirst rest path

structure CleanRes where
  files : List (List Char)
  sd : List (List Char × SyncRecord)
  deleted : Nat
  ok : Bool
deriving DecidableEq

/-- The `for filename in os.listdir(...)` loop of `clean_old_data`.
`ok := false` models the `IndexError` from `filename.split("_")[2]` on a
`sync_*.json` name with fewer than three parts: the loop stops there and
files already removed stay removed. -/
def cleanLoop (dir cutoff : List Char) :
    List (List Char) → List (List Char × SyncRecord) → CleanRes
  | [], sd => ⟨[], sd, 0, true⟩
  | f :: rest, sd =>
    if startsWithL "sync_".data f && endsWithL ".json".data f then
      match (splitOnChar '_' f).get? 2 with
      | none => ⟨f :: rest, sd, 0, false⟩
      | some tok =>
        if lexLt tok cutoff then
          let r := cleanLoop dir cutoff rest
            (evictFirst sd (dir ++ "/".data ++ f))
          ⟨r.files, r.sd, r.deleted + 1, r.ok⟩
        else
          let r := cleanLoop dir cutoff rest sd
          ⟨f :: r.files, r.sd, r.deleted, r.ok⟩
    else
      let r := cleanLoop dir cutoff rest sd
      ⟨f :: r.files, r.sd, r.deleted, r.ok⟩

/-- `MasterSync.clean_old_data(days)`: returns the new state and the
`files_deleted` count (`0` when the surrounding `try` caught an
exception). -/
def clean_old_data (st : MasterState) (now : Date) (days : Nat) :
    MasterState × Nat :=
  let cutoff := fmtDate (subDays now days)
  let r := cleanLoop st.data_directory cutoff st.files st.synced_data
  ({ st with files := r.files, synced_data := r.sd },
   if r.ok then r.deleted else 0)

/-- The fields of `generate_sync_report` that depend on the coordinator
state (`generated_at` is the clock and `data_size` the disk, neither is
modelled). -/
structure SyncReport where
  total_slaves : Nat
  synced_data_count : Nat
  data_directory : List Char
  slave_details : List (List Char × List Char × List Char)
deriving DecidableEq

/-- `MasterSync.generate_sync_report()`. -/
def generate_sync_report (st : MasterState) : SyncReport :=
  { total_slaves := st.slaves.length
    synced_data_count := st.synced_data.length
    data_directory := st.data_directory
    slave_details := st.synced_data.map fun e =>
      (e.1, e.2.last_sync, e.2.file_path) }

/-! ### `SlaveSync.sync_to_master`

Everything inside the `try` that can raise — mailbox collection that
escapes its own handler, the HTTP POST, the response JSON parse — is
summarized as one `Except String Ack` outcome carrying either the parsed
response or the exception message. -/

structure SlaveState where
  slave_id : List Char
  master_url : List Char
  is_running : Bool
  last_sync_time : Option (List Char)
  last_sync_result : Option Ack
deriving DecidableEq

/-- `SlaveSync.sync_to_master()`: on success store and return the parsed
response; on any exception build the error result, store it as
`last_sync_result` (without touching `last_sync_time`) and return it.
The function never propagates the exception: its result type is a plain
pair, not an `Except`. -/
def sync_to_master (st : SlaveState) (now : List Char)
    (outcome : Except (List Char) Ack) : SlaveState × Ack :=
  match outcome with
  | .ok result =>
      ({ st with last_sync_time := some now,
                 last_sync_result := some result }, result)
  | .error e =>
      let result : Ack := ⟨"error".data, "同步失败: ".data ++ e, none, none⟩
      ({ st with last_sync_result := some result }, result)

/-! ### Reachable coordinator states -/

/-- Applying a list of successful ingests in order. -/
def applySyncs (ops : List (List Char × List Char × List Char))
    (st : MasterState) : MasterState :=
  ops.foldl (fun s op => (handle_slave_sync s op.1 op.2.1 op.2.2 (.ok ())).1) st

/-- The coordinator states reachable from a fresh `MasterSync` by any
interleaving of sync requests (either outcome) and retention sweeps. -/
inductive Reach : MasterState → Prop
  | init (dir : List Char) : Reach (initMaster dir)
  | sync {st : MasterState} (slave_id data ts : List Char)
      (writeRes : Except (List Char) Unit) :
      Reach st → Reach (handle_slave_sync st slave_id data ts writeRes).1
  | sweep {st : MasterState} (now : Date) (days : Nat) :
      Reach st → Reach (clean_old_data st now days).1

/-! ## Helper lemmas -/

theorem padNum_length (w : Nat) : ∀ n, (padNum w n).length = w := by
  induction w with
  | zero => intro n; rfl
  | succ k ih => intro n; simp [padNum, ih]

theorem digitChar_isDigit {m : Nat} (h : m < 10) :
    (digitChar m).isDigit = true := by
  interval_cases m <;> decide

theorem padNum_all_digit (w : Nat) : ∀ n, (padNum w n).all Char.isDigit = true := by
  induction w with
  | zero => intro n; rfl
  | succ k ih =>
      intro n
      simp only [padNum, List.all_append, ih, Bool.true_and, List.all_cons,
        List.all_nil, Bool.and_true]
      exact digitChar_isDigit (Nat.mod_lt n (by omega))

theorem fmtTs_length (t : Timestamp) : (fmtTs t).length = 14 := by
  simp [fmtTs, padNum_length]

theorem fmtTs_all_digit (t : Timestamp) : (fmtTs t).all Char.isDigit = true := by
  simp [fmtTs, List.all_append, padNum_all_digit]

theorem word_not_space {c : Char} (h : isWordChar c = true) :
    isSpaceChar c = false := by
  by_contra hs
  have hs2 : isSpaceChar c = true := by
    cases h2 : isSpaceChar c
    · exact absurd h2 hs
    · rfl
  have hcases : ((((c = ' ' ∨ c = '\t') ∨ c = '\n') ∨ c = '\x0d') ∨ c = '\x0b')
      ∨ c = '\x0c' := by
    simpa [isSpaceChar] using hs2
  rcases hcases with ((((rfl | rfl) | rfl) | rfl) | rfl) | rfl <;>
    exact absurd h (by decide)

theorem dropWhile_eq_self_of_all {p : Char → Bool} {s : List Char}
    (h : ∀ c ∈ s, p c = false) : s.dropWhile p = s := by
  cases s with
  | nil => rfl
  | cons c cs => simp [List.dropWhile_cons, h c (by simp)]

theorem pyStrip_eq_self_of_word {s : List Char} (h : s.all isWordChar = true) :
    pyStrip s = s := by
  have hns : ∀ c ∈ s, isSpaceChar c = false := by
    intro c hc
    exact word_not_space (by simpa using List.all_eq_true.1 h c hc)
  unfold pyStrip
  rw [dropWhile_eq_self_of_all hns, dropWhile_eq_self_of_all
    (by intro c hc; exact hns c (by simpa using hc)), List.reverse_reverse]

/-! ### Capture characterization for the ticket-id pattern -/

/-- The regex has no capture group. -/
def NoGrp : RE → Prop
  | .eps => True
  | .lit _ => True
  | .cls _ => True
  | .cat a b => NoGrp a ∧ NoGrp b
  | .alt a b => NoGrp a ∧ NoGrp b
  | .starCls _ => True
  | .plusClsG _ => True
  | .plusClsL _ => True
  | .look a => NoGrp a
  | .eos => True
  | .grp _ => False

theorem litStr_nogrp (s : List Char) : NoGrp (litStr s) := by
  induction s with
  | nil => trivial
  | cons c cs ih => exact ⟨trivial, ih⟩

/-- A group-free regex never changes the capture. -/
theorem mrun_nogrp_cap : ∀ {r : RE}, NoGrp r →
    ∀ cap s out, out ∈ mrun r cap s → out.1 = cap := by
  intro r
  induction r with
  | eps => intro _ cap s out h; simp [mrun] at h; simp [h]
  | lit c =>
      intro _ cap s out h
      cases s with
      | nil => simp [mrun] at h
      | cons x xs =>
          simp only [mrun] at h
          split at h <;> simp_all
  | cls p =>
      intro _ cap s out h
      cases s with
      | nil => simp [mrun] at h
      | cons x xs =>
          simp only [mrun] at h
          split at h <;> simp_all
  | cat a b iha ihb =>
      intro hng cap s out h
      simp only [mrun, List.mem_flatMap] at h
      obtain ⟨mid, hmid, hout⟩ := h
      have h1 := iha hng.1 cap s mid hmid
      have h2 := ihb hng.2 mid.1 mid.2 out hout
      rw [h2, h1]
  | alt a b iha ihb =>
      intro hng cap s out h
      simp only [mrun, List.mem_append] at h
      rcases h with h | h
      · exact iha hng.1 cap s out h
      · exact ihb hng.2 cap s out h
  | starCls p =>
      intro _ cap s out h
      simp only [mrun, List.mem_map] at h
      obtain ⟨r, _, hr⟩ := h
      simp [← hr]
  | plusClsG p =>
      intro _ cap s out h
      simp only [mrun, List.mem_map] at h
      obtain ⟨r, _, hr⟩ := h
      simp [← hr]
  | plusClsL p =>
      intro _ cap s out h
      simp only [mrun, List.mem_map] at h
      obtain ⟨r, _, hr⟩ := h
      simp [← hr]
  | look a iha =>
      intro hng cap s out h
      simp only [mrun] at h
      split at h
      · simp at h
      · next heq =>
          simp only [List.mem_singleton] at h
          subst h
          have := iha hng cap s _ (heq ▸ List.mem_cons_self _ _)
          simpa using this
  | eos =>
      intro _ cap s out h
      simp only [mrun] at h
      split at h <;> simp_all
  | grp a iha => intro hng; exact absurd hng (by simp [NoGrp])

theorem greedyRests_spec (p : Char → Bool) : ∀ s r, r ∈ greedyRests p s →
    ∃ pre, s = pre ++ r ∧ pre.all p = true := by
  intro s
  induction s with
  | nil =>
      intro r h
      simp [greedyRests] at h
      exact ⟨[], by simp [h]⟩
  | cons c cs ih =>
      intro r h
      simp only [greedyRests] at h
      by_cases hc : p c
      · rw [if_pos hc] at h
        rcases List.mem_append.1 h with h1 | h2
        · obtain ⟨pre, hpre, hall⟩ := ih r h1
          exact ⟨c :: pre, by simp [hpre], by simp [hall, hc]⟩
        · simp only [List.mem_singleton] at h2
          exact ⟨[], by simp [h2], by simp⟩
      · rw [if_neg hc] at h
        simp only [List.mem_singleton] at h
        exact ⟨[], by simp [h], by simp⟩

theorem mem_mrun_cat {a b : RE} {cap : Option (List Char)} {s : List Char}
    {out : MRes} :
    out ∈ mrun (.cat a b) cap s ↔ ∃ m ∈ mrun a cap s, out ∈ mrun b m.1 m.2 := by
  simp [mrun, List.mem_flatMap]

/-- The outcomes of the greedy `p+` piece: the capture is untouched and
the consumed part is a nonempty run of `p`-characters. -/
theorem mem_mrun_plusG {p : Char → Bool} {cap : Option (List Char)}
    {s : List Char} {out : MRes} (h : out ∈ mrun (.plusClsG p) cap s) :
    ∃ pre, out = (cap, out.2) ∧ s = pre ++ out.2 ∧ pre ≠ [] ∧
      pre.all p = true := by
  simp only [mrun, List.mem_map] at h
  obtain ⟨r, hr, hout⟩ := h
  cases s with
  | nil => simp at hr
  | cons c cs =>
      simp only at hr
      by_cases hc : p c
      · rw [if_pos hc] at hr
        obtain ⟨pre, hpre, hall⟩ := greedyRests_spec p cs r hr
        refine ⟨c :: pre, ?_, ?_, by simp, by simp [hall, hc]⟩
        · cases hout; rfl
        · cases hout; simpa using hpre
      · rw [if_neg hc] at hr
        simp at hr

/-- Every match of the ticket-id pattern captures a nonempty run of word
characters. -/
theorem ticket_mrun_cap : ∀ cap s out, out ∈ mrun ticketPat cap s →
    ∃ g, out.1 = some g ∧ g ≠ [] ∧ g.all isWordChar = true := by
  intro cap s out h
  have hpat : ticketPat = .cat (litStr "工单编号".data) (.cat colonCls
      (.cat (.starCls isSpaceChar) (.cat (.grp (.plusClsG isWordChar))
        (.cat (.starCls isSpaceChar) .eps)))) := rfl
  rw [hpat, mem_mrun_cat] at h
  obtain ⟨m1, hm1, h⟩ := h
  rw [mem_mrun_cat] at h
  obtain ⟨m2, hm2, h⟩ := h
  rw [mem_mrun_cat] at h
  obtain ⟨m3, hm3, h⟩ := h
  rw [mem_mrun_cat] at h
  obtain ⟨m4, hm4, h⟩ := h
  -- the trailing `\s*` and the closing eps do not touch the capture
  have hcap5 : out.1 = m4.1 :=
    mrun_nogrp_cap (r := .cat (.starCls isSpaceChar) .eps) ⟨trivial, trivial⟩
      m4.1 m4.2 out h
  -- m4 comes from the capture group over `\w+`
  rw [show mrun (.grp (.plusClsG isWordChar)) m3.1 m3.2 =
      (mrun (.plusClsG isWordChar) m3.1 m3.2).map
        (fun r => (some (m3.2.take (m3.2.length - r.2.length)), r.2)) from rfl,
    List.mem_map] at hm4
  obtain ⟨r4, hr4, hm4eq⟩ := hm4
  obtain ⟨pre, hr4eq, hsplit, hne, hall⟩ := mem_mrun_plusG hr4
  refine ⟨pre, ?_, hne, hall⟩
  rw [hcap5, ← hm4eq]
  simp only
  congr 1
  rw [hsplit, List.length_append, Nat.add_sub_cancel, List.take_left]

theorem searchAt_ticket_cap {s g : List Char}
    (h : searchAt ticketPat s = some g) :
    g ≠ [] ∧ g.all isWordChar = true := by
  unfold searchAt at h
  split at h
  · exact absurd h (by simp)
  · next cap rest tl heq =>
      obtain ⟨g0, hg0, hne, hall⟩ :=
        ticket_mrun_cap none s (cap, rest) (heq ▸ List.mem_cons_self _ _)
      simp only at hg0
      rw [hg0] at h
      simp only [Option.getD_some, Option.some.injEq] at h
      exact ⟨h ▸ hne, h ▸ hall⟩

/-- Whenever `re.search` of the ticket-id pattern succeeds, group 1 is a
nonempty run of word characters. -/
theorem research_ticket_cap : ∀ s g, research ticketPat s = some g →
    g ≠ [] ∧ g.all isWordChar = true := by
  intro s
  induction s with
  | nil =>
      intro g h
      exact searchAt_ticket_cap (s := []) h
  | cons c cs ih =>
      intro g h
      unfold research at h
      split at h
      · next heq => cases h; exact searchAt_ticket_cap heq
      · exact ih g h

/-! ## Claim theorems -/

/-- C1, claim as stated is false: the body consists of the single line
`工单编号：T-1`, so `X = "T-1"` with empty surrounding whitespace, yet
the extracted ticket_id is `"T"`: the `(\w+)` capture stops at the
hyphen. -/
theorem c1_ticket_id_counterexample :
    (extract_ticket_info ⟨2023, 10, 1, 14, 30, 0⟩
        ("工单编号：".data ++ "T-1".data)).ticket_id = "T".data ∧
      "T".data ≠ pyStrip "T-1".data := by
  constructor
  · decide
  · decide

/-- C1 amended: when the ticket-id pattern matches, the extracted
ticket_id is exactly the captured group, a nonempty run of word
characters (so it equals `X.strip()` only when that strip is a pure
`\w+` run); when the pattern does not match, the ticket_id is `TEMP_`
followed by exactly 14 digits of the current clock. -/
theorem c1_ticket_id_spec (now : Timestamp) (hv : now.Valid)
    (body : List Char) :
    (research ticketPat body = none →
      (extract_ticket_info now body).ticket_id = "TEMP_".data ++ fmtTs now ∧
        (fmtTs now).length = 14 ∧ (fmtTs now).all Char.isDigit = true) ∧
    (∀ g, research ticketPat body = some g →
      (extract_ticket_info now body).ticket_id = g ∧ g ≠ [] ∧
        g.all isWordChar = true) := by
  constructor
  · intro hnone
    have hf : fieldExtract ticketPat body = [] := by
      simp [fieldExtract, hnone]
    refine ⟨?_, fmtTs_length now, fmtTs_all_digit now⟩
    simp [extract_ticket_info, hf]
  · intro g hg
    obtain ⟨hne, hall⟩ := research_ticket_cap body g hg
    have hf : fieldExtract ticketPat body = g := by
      simp [fieldExtract, hg, pyStrip_eq_self_of_word hall]
    refine ⟨?_, hne, hall⟩
    simp [extract_ticket_info, hf, hne]

theorem c1_ticket_id_spec_witness :
    ((extract_ticket_info ⟨2023, 10, 1, 14, 30, 0⟩
        "工单编号：abc".data).ticket_id = "abc".data ∧
      (extract_ticket_info ⟨2023, 10, 1, 14, 30, 0⟩ "no label".data).ticket_id
        = "TEMP_".data ++ fmtTs ⟨2023, 10, 1, 14, 30, 0⟩) := by
  constructor
  · exact ((c1_ticket_id_spec ⟨2023, 10, 1, 14, 30, 0⟩ (by decide)
      "工单编号：abc".data).2 "abc".data (by decide)).1
  · exact ((c1_ticket_id_spec ⟨2023, 10, 1, 14, 30, 0⟩ (by decide)
      "no label".data).1 (by decide)).1

/-- C2, claim as stated is false on the scenario body: the labels of
this body use the fullwidth colon, the lookahead of the
problem-description pattern only recognizes an ASCII colon, and `.`
matches newlines under `DOTALL`, so customer_name swallows the rest of
the body instead of stopping at the line end, problem_desc runs to the
end of the text, and the `(\w+)` ticket capture stops at the hyphen of
`T-1`. -/
theorem c2_scenario_counterexample :
    (extract_ticket_info ⟨2023, 10, 1, 14, 30, 0⟩
        "工单编号：T-1\n客户名称：Alice\n问题描述：无法登录\n优先级：高".data).ticket_id
        ≠ "T-1".data ∧
      (extract_ticket_info ⟨2023, 10, 1, 14, 30, 0⟩
        "工单编号：T-1\n客户名称：Alice\n问题描述：无法登录\n优先级：高".data).customer_name
        ≠ "Alice".data ∧
      (extract_ticket_info ⟨2023, 10, 1, 14, 30, 0⟩
        "工单编号：T-1\n客户名称：Alice\n问题描述：无法登录\n优先级：高".data).problem_desc
        ≠ "无法登录".data := by
  refine ⟨by decide, by decide, by decide⟩

/-- C2 amended: on the scenario body the extraction yields ticket_id
`"T"`, customer_name equal to the whole tail after its label,
problem_desc running to the end of the text, priority `"高"`, and all
other fields empty — for every clock, since the matched ticket_id
suppresses the `TEMP_` fallback. -/
theorem c2_scenario_record (now : Timestamp) :
    extract_ticket_info now
        "工单编号：T-1\n客户名称：Alice\n问题描述：无法登录\n优先级：高".data =
      { ticket_id := "T".data
        customer_name := "Alice\n问题描述：无法登录\n优先级：高".data
        contact_info := []
        problem_desc := "无法登录\n优先级：高".data
        priority := "高".data
        status := []
        assigned_to := []
        created_time := [] } := by
  rfl

/-- C3: extraction is total by construction (it is a Lean function into a
structure whose eight fields are always present); a field whose pattern
finds no match is the empty string, and the empty ticket_id is replaced
by the synthesized `TEMP_` stamp, so ticket_id is never empty. -/
theorem c3_extract_total (now : Timestamp) (body : List Char) :
    (extract_ticket_info now body).ticket_id ≠ [] ∧
    (research customerPat body = none →
      (extract_ticket_info now body).customer_name = []) ∧
    (research contactPat body = none →
      (extract_ticket_info now body).contact_info = []) ∧
    (research problemPat body = none →
      (extract_ticket_info now body).problem_desc = []) ∧
    (research priorityPat body = none →
      (extract_ticket_info now body).priority = []) ∧
    (research statusPat body = none →
      (extract_ticket_info now body).status = []) ∧
    (research assignedPat body = none →
      (extract_ticket_info now body).assigned_to = []) ∧
    (research createdPat body = none →
      (extract_ticket_info now body).created_time = []) ∧
    (research ticketPat body = none →
      (extract_ticket_info now body).ticket_id = "TEMP_".data ++ fmtTs now) := by
  refine ⟨?_, ?_, ?_, ?_, ?_, ?_, ?_, ?_, ?_⟩
  · by_cases h : fieldExtract ticketPat body = []
    · simp [extract_ticket_info, h]
    · simp [extract_ticket_info, h]
  all_goals
    intro h
    simp [extract_ticket_info, fieldExtract, h]

theorem c3_extract_total_witness :
    (extract_ticket_info ⟨2023, 10, 1, 14, 30, 0⟩ [] ).ticket_id ≠ [] ∧
      (extract_ticket_info ⟨2023, 10, 1, 14, 30, 0⟩ [] ).customer_name = [] ∧
      (extract_ticket_info ⟨2023, 10, 1, 14, 30, 0⟩ [] ).ticket_id =
        "TEMP_".data ++ fmtTs ⟨2023, 10, 1, 14, 30, 0⟩ := by
  obtain ⟨h1, h2, _, _, _, _, _, _, h9⟩ :=
    c3_extract_total ⟨2023, 10, 1, 14, 30, 0⟩ []
  exact ⟨h1, h2 (by decide), h9 (by decide)⟩

/-- C4: `_is_image_file` holds exactly when the lower-cased extension is
a dot followed by one of jpg, jpeg, png, gif, bmp, tiff; a path without
an extension is never an image; and the has_images flag of `parse_email`
is the logical OR (`List.any`) of the per-attachment classification. -/
theorem c4_image_classification (p : List Char) :
    (is_image_file p = true ↔
      ∃ e ∈ ["jpg".data, "jpeg".data, "png".data, "gif".data, "bmp".data,
        "tiff".data], (splitextExt p).map Char.toLower = '.' :: e) ∧
    (splitextExt p = [] → is_image_file p = false) ∧
    (∀ (now : Timestamp) (ed : EmailDetails)
        (atts : Option (List (List Char))),
      (parse_email now ed atts).has_images =
        (atts.getD []).any is_image_file) := by
  refine ⟨?_, ?_, fun _ _ _ => rfl⟩
  · unfold is_image_file imageExtensions
    rw [show ∀ (x : List Char) (L : List (List Char)),
        L.contains x = List.elem x L from fun _ _ => rfl, List.elem_iff]
    constructor
    · intro h
      simp only [List.mem_cons, List.not_mem_nil, or_false] at h
      rcases h with h | h | h | h | h | h
      · exact ⟨"jpg".data, by simp, h⟩
      · exact ⟨"jpeg".data, by simp, h⟩
      · exact ⟨"png".data, by simp, h⟩
      · exact ⟨"gif".data, by simp, h⟩
      · exact ⟨"bmp".data, by simp, h⟩
      · exact ⟨"tiff".data, by simp, h⟩
    · rintro ⟨e, he, heq⟩
      simp only [List.mem_cons, List.not_mem_nil, or_false] at he
      rcases he with rfl | rfl | rfl | rfl | rfl | rfl <;> rw [heq] <;> decide
  · intro h
    simp [is_image_file, imageExtensions, h]

theorem c4_image_classification_witness :
    is_image_file "photo.PNG".data = true ∧
      is_image_file "notes".data = false := by
  constructor
  · exact (c4_image_classification "photo.PNG".data).1.2
      ⟨"png".data, by simp, by decide⟩
  · exact (c4_image_classification "notes".data).2.1 (by decide)

/-! ### Filesystem lemmas for `save_to_file` -/

theorem mem_fsAdd_iff {fs : FS} {p x : List Char} :
    x ∈ fsAdd fs p ↔ x = p ∨ x ∈ fs := by
  unfold fsAdd
  split
  · next h => constructor
              · exact fun hx => Or.inr hx
              · rintro (rfl | hx)
                · exact h
                · exact hx
  · simp [List.mem_cons]

theorem fsAdd_mem {fs : FS} {p x : List Char} (h : x ∈ fs) : x ∈ fsAdd fs p :=
  mem_fsAdd_iff.2 (Or.inr h)

theorem fsAdd_nodup {fs : FS} {p : List Char} (h : fs.Nodup) :
    (fsAdd fs p).Nodup := by
  unfold fsAdd
  split
  · exact h
  · next hp => exact List.Nodup.cons hp h

theorem moveLoop_nodup (d : List Char) :
    ∀ (l : List (List Char)) (fs : FS), fs.Nodup →
      (moveLoop d fs l).1.Nodup := by
  intro l
  induction l with
  | nil => intro fs h; exact h
  | cons a rest ih =>
      intro fs h
      unfold moveLoop
      split
      · exact ih _ (fsAdd_nodup (h.erase a))
      · exact ih _ h

/-- Membership in the filesystem after the move loop, for a path that is
not the destination of any attachment: it survives exactly when it was
present and is not itself one of the moved sources. -/
theorem moveLoop_mem (d : List Char) :
    ∀ (l : List (List Char)) (fs : FS) (x : List Char), fs.Nodup →
      (∀ a ∈ l, pjoin d (lastComponent a) ≠ x) →
      (x ∈ (moveLoop d fs l).1 ↔ x ∈ fs ∧ x ∉ l) := by
  intro l
  induction l with
  | nil => intro fs x _ _; simp [moveLoop]
  | cons a rest ih =>
      intro fs x hnd hx
      unfold moveLoop
      split
      · next ha =>
          rw [ih _ x (fsAdd_nodup (hnd.erase a))
            (fun b hb => hx b (List.mem_cons_of_mem a hb))]
          rw [mem_fsAdd_iff]
          constructor
          · rintro ⟨hmem | hmem, hnr⟩
            · exact absurd hmem.symm (hx a (List.mem_cons_self a rest))
            · rw [hnd.mem_erase_iff] at hmem
              exact ⟨hmem.2, by simp [List.mem_cons, hmem.1, hnr]⟩
          · rintro ⟨hmem, hnr⟩
            simp only [List.mem_cons, not_or] at hnr
            exact ⟨Or.inr (hnd.mem_erase_iff.2 ⟨hnr.1, hmem⟩), hnr.2⟩
      · next ha =>
          rw [ih _ x hnd (fun b hb => hx b (List.mem_cons_of_mem a hb))]
          constructor
          · rintro ⟨hmem, hnr⟩
            refine ⟨hmem, ?_⟩
            simp only [List.mem_cons, not_or]
            exact ⟨fun hxa => ha (hxa ▸ hmem), hnr⟩
          · rintro ⟨hmem, hnr⟩
            simp only [List.mem_cons, not_or] at hnr
            exact ⟨hmem, hnr.2⟩

/-- When every source exists, none is the destination of any move, and
the sources are distinct, every move of the loop succeeds. -/
theorem moveLoop_fails_empty (d : List Char) :
    ∀ (l : List (List Char)) (fs : FS), l.Nodup → fs.Nodup →
      (∀ a ∈ l, a ∈ fs) →
      (∀ a ∈ l, ∀ b ∈ l, pjoin d (lastComponent b) ≠ a) →
      (moveLoop d fs l).2 = [] := by
  intro l
  induction l with
  | nil => intro fs _ _ _ _; rfl
  | cons a rest ih =>
      intro fs hl hfs hin hdest
      unfold moveLoop
      split
      · next ha =>
          exact ih _ (List.Nodup.of_cons hl) (fsAdd_nodup (hfs.erase a))
            (fun b hb => fsAdd_mem ((List.mem_erase_of_ne
              (fun hba => (List.nodup_cons.1 hl).1
                (by rw [← hba]; exact hb))).2
              (hin b (List.mem_cons_of_mem a hb))))
            (fun x hx b hb => hdest x (List.mem_cons_of_mem a hx) b
              (List.mem_cons_of_mem a hb))
      · next ha => exact absurd (hin a (List.mem_cons_self a rest)) ha

/-- When no source exists, every move fails and the filesystem is
untouched. -/
theorem moveLoop_fails_all (d : List Char) :
    ∀ (l : List (List Char)) (fs : FS), (∀ a ∈ l, a ∉ fs) →
      (moveLoop d fs l).2 = l ∧ (moveLoop d fs l).1 = fs := by
  intro l
  induction l with
  | nil => intro fs _; exact ⟨rfl, rfl⟩
  | cons a rest ih =>
      intro fs hout
      unfold moveLoop
      split
      · next ha => exact absurd ha (hout a (List.mem_cons_self a rest))
      · next ha =>
          obtain ⟨h2, h1⟩ := ih fs (fun b hb => hout b (List.mem_cons_of_mem a hb))
          refine ⟨?_, h1⟩
          show a :: (moveLoop d fs rest).2 = a :: rest
          rw [h2]

theorem metaWrites_nodup {fs : FS} {pd : ParsedData} {td : List Char}
    (h : fs.Nodup) : (metaWrites fs pd td).Nodup := by
  unfold metaWrites
  split
  · exact fsAdd_nodup (fsAdd_nodup (fsAdd_nodup h))
  · exact fsAdd_nodup (fsAdd_nodup h)

theorem mem_metaWrites {fs : FS} {pd : ParsedData} {td x : List Char}
    (h : x ∈ fs) : x ∈ metaWrites fs pd td := by
  unfold metaWrites
  split
  · exact fsAdd_mem (fsAdd_mem (fsAdd_mem h))
  · exact fsAdd_mem (fsAdd_mem h)

theorem not_mem_metaWrites {fs : FS} {pd : ParsedData} {td x : List Char}
    (h : x ∉ fs) (hj : x ≠ pjoin td "email_data.json".data)
    (ht : x ≠ pjoin td "email_body.txt".data)
    (hh : x ≠ pjoin td "email_body.html".data) :
    x ∉ metaWrites fs pd td := by
  unfold metaWrites
  split
  · intro hmem
    rcases mem_fsAdd_iff.1 hmem with h1 | hmem
    · exact hh h1
    rcases mem_fsAdd_iff.1 hmem with h1 | hmem
    · exact ht h1
    rcases mem_fsAdd_iff.1 hmem with h1 | hmem
    · exact hj h1
    · exact h hmem
  · intro hmem
    rcases mem_fsAdd_iff.1 hmem with h1 | hmem
    · exact ht h1
    rcases mem_fsAdd_iff.1 hmem with h1 | hmem
    · exact hj h1
    · exact h hmem

/-- C5, claim as stated is false: in this concrete scenario the second
`save_to_file` for the same ticket and source path does NOT fail — it
completes and returns the ticket directory again.  The first call moved
`/tmp/a.png` away, so the second call's `os.rename` raises, but that
exception is caught inside the per-attachment loop and only logged. -/
theorem c5_persist_counterexample :
    (save_to_file ["/tmp/a.png".data]
        (parse_email ⟨2023, 10, 1, 14, 30, 0⟩ ⟨[], [], [], [],
          "工单编号：AB".data, []⟩ (some ["/tmp/a.png".data]))
        "/out".data).2.2 = [] ∧
      "/tmp/a.png".data ∉
        (save_to_file ["/tmp/a.png".data]
          (parse_email ⟨2023, 10, 1, 14, 30, 0⟩ ⟨[], [], [], [],
            "工单编号：AB".data, []⟩ (some ["/tmp/a.png".data]))
          "/out".data).1 ∧
      (save_to_file
        (save_to_file ["/tmp/a.png".data]
          (parse_email ⟨2023, 10, 1, 14, 30, 0⟩ ⟨[], [], [], [],
            "工单编号：AB".data, []⟩ (some ["/tmp/a.png".data]))
          "/out".data).1
        (parse_email ⟨2023, 10, 1, 14, 30, 0⟩ ⟨[], [], [], [],
          "工单编号：AB".data, []⟩ (some ["/tmp/a.png".data]))
        "/out".data).2.1 = "/out/AB".data ∧
      (save_to_file
        (save_to_file ["/tmp/a.png".data]
          (parse_email ⟨2023, 10, 1, 14, 30, 0⟩ ⟨[], [], [], [],
            "工单编号：AB".data, []⟩ (some ["/tmp/a.png".data]))
          "/out".data).1
        (parse_email ⟨2023, 10, 1, 14, 30, 0⟩ ⟨[], [], [], [],
          "工单编号：AB".data, []⟩ (some ["/tmp/a.png".data]))
        "/out".data).2.2 = ["/tmp/a.png".data] := by
  refine ⟨by decide, by decide, by decide, by decide⟩

/-- C5 amended: for a ticket with existing, distinct attachment sources
(none of which collides with a written file or a move destination), the
first `save_to_file` moves all of them and reports no failure; the second
invocation with the same sources completes and returns the same ticket
directory, but every attachment move fails internally because the first
call relocated the sources — persist silently skips them instead of
failing, so it is not repeatable in effect. -/
theorem c5_persist_not_repeatable (fs : FS) (pd : ParsedData)
    (out_dir : List Char) (hfs : fs.Nodup) (hne : pd.attachments ≠ [])
    (hnd : pd.attachments.Nodup) (hin : ∀ a ∈ pd.attachments, a ∈ fs)
    (hdest : ∀ a ∈ pd.attachments, ∀ b ∈ pd.attachments,
      pjoin (pjoin (pjoin out_dir pd.ticket.ticket_id) "attachments".data)
        (lastComponent b) ≠ a)
    (hmeta : ∀ a ∈ pd.attachments,
      a ≠ pjoin (pjoin out_dir pd.ticket.ticket_id) "email_data.json".data ∧
      a ≠ pjoin (pjoin out_dir pd.ticket.ticket_id) "email_body.txt".data ∧
      a ≠ pjoin (pjoin out_dir pd.ticket.ticket_id) "email_body.html".data) :
    (save_to_file fs pd out_dir).2.2 = [] ∧
    (save_to_file (save_to_file fs pd out_dir).1 pd out_dir).2.1 =
      pjoin out_dir pd.ticket.ticket_id ∧
    (save_to_file (save_to_file fs pd out_dir).1 pd out_dir).2.2 =
      pd.attachments := by
  have hunfold : ∀ fs0 : FS, save_to_file fs0 pd out_dir =
      ((moveLoop (pjoin (pjoin out_dir pd.ticket.ticket_id)
          "attachments".data)
        (metaWrites fs0 pd (pjoin out_dir pd.ticket.ticket_id))
        pd.attachments).1,
       pjoin out_dir pd.ticket.ticket_id,
       (moveLoop (pjoin (pjoin out_dir pd.ticket.ticket_id)
          "attachments".data)
        (metaWrites fs0 pd (pjoin out_dir pd.ticket.ticket_id))
        pd.attachments).2) := by
    intro fs0
    simp only [save_to_file, if_pos hne]
  have h3nodup : (metaWrites fs pd (pjoin out_dir pd.ticket.ticket_id)).Nodup :=
    metaWrites_nodup hfs
  have hfail1 : (save_to_file fs pd out_dir).2.2 = [] := by
    rw [hunfold fs]
    exact moveLoop_fails_empty _ pd.attachments _ hnd h3nodup
      (fun a ha => mem_metaWrites (hin a ha)) hdest
  -- after the first call every source is gone
  have hgone : ∀ a ∈ pd.attachments, a ∉ (save_to_file fs pd out_dir).1 := by
    intro a ha
    rw [hunfold fs]
    simp only
    rw [moveLoop_mem _ pd.attachments _ a h3nodup
      (fun b hb => hdest a ha b hb)]
    rintro ⟨-, hnotin⟩
    exact hnotin ha
  have hout2 : ∀ a ∈ pd.attachments,
      a ∉ metaWrites (save_to_file fs pd out_dir).1 pd
        (pjoin out_dir pd.ticket.ticket_id) := by
    intro a ha
    obtain ⟨hj, ht, hh⟩ := hmeta a ha
    exact not_mem_metaWrites (hgone a ha) hj ht hh
  obtain ⟨hfail2, -⟩ := moveLoop_fails_all
    (pjoin (pjoin out_dir pd.ticket.ticket_id) "attachments".data)
    pd.attachments
    (metaWrites (save_to_file fs pd out_dir).1 pd
      (pjoin out_dir pd.ticket.ticket_id))
    hout2
  refine ⟨hfail1, ?_, ?_⟩
  · rw [hunfold (save_to_file fs pd out_dir).1]
  · rw [hunfold (save_to_file fs pd out_dir).1]
    exact hfail2

theorem c5_persist_not_repeatable_witness :
    (save_to_file ["/x/a.png".data, "/x/b.txt".data]
        ⟨⟨[], [], [], [], [], []⟩,
          ⟨"TK1".data, [], [], [], [], [], [], []⟩,
          ["/x/a.png".data, "/x/b.txt".data], [], true⟩
        "/out".data).2.2 = [] ∧
      (save_to_file
        (save_to_file ["/x/a.png".data, "/x/b.txt".data]
          ⟨⟨[], [], [], [], [], []⟩,
            ⟨"TK1".data, [], [], [], [], [], [], []⟩,
            ["/x/a.png".data, "/x/b.txt".data], [], true⟩
          "/out".data).1
        ⟨⟨[], [], [], [], [], []⟩,
          ⟨"TK1".data, [], [], [], [], [], [], []⟩,
          ["/x/a.png".data, "/x/b.txt".data], [], true⟩
        "/out".data).2.2 = ["/x/a.png".data, "/x/b.txt".data] := by
  obtain ⟨h1, -, h3⟩ := c5_persist_not_repeatable
    ["/x/a.png".data, "/x/b.txt".data]
    ⟨⟨[], [], [], [], [], []⟩,
      ⟨"TK1".data, [], [], [], [], [], [], []⟩,
      ["/x/a.png".data, "/x/b.txt".data], [], true⟩
    "/out".data (by decide) (by decide) (by decide) (by decide) (by decide)
    (by decide)
  exact ⟨h1, h3⟩

/-- C6: when the snapshot file write succeeds, `handle_slave_sync`
returns the success acknowledgement carrying status, message, timestamp
and `received_data_size = len(json.dumps(data))`; when the write fails,
the exception is caught and an error-status acknowledgement is returned
instead (the function is total — nothing propagates to the caller) and
the state is untouched. -/
theorem c6_ingest_ack (st : MasterState) (slave_id data ts e : List Char) :
    (handle_slave_sync st slave_id data ts (.ok ())).2 =
      ⟨"success".data, "同步成功".data, some ts, some data.length⟩ ∧
    (handle_slave_sync st slave_id data ts (.error e)).2 =
      ⟨"error".data, "同步失败: ".data ++ e, none, none⟩ ∧
    (handle_slave_sync st slave_id data ts (.error e)).1 = st :=
  ⟨rfl, rfl, rfl⟩

/-- C9: `sync_to_master` converts any exception raised during
collection, POST or response parsing into an error-status result with a
message, stores it as the last sync result (leaving the last sync time
untouched), and returns that result; on success it stores and returns
the parsed response.  The function is total: no exception propagates. -/
theorem c9_push_error_handling (st : SlaveState) (now e : List Char)
    (a : Ack) :
    (sync_to_master st now (.error e)).2 =
      ⟨"error".data, "同步失败: ".data ++ e, none, none⟩ ∧
    (sync_to_master st now (.error e)).1.last_sync_result =
      some (sync_to_master st now (.error e)).2 ∧
    (sync_to_master st now (.error e)).1.last_sync_time =
      st.last_sync_time ∧
    (sync_to_master st now (.ok a)).2 = a ∧
    (sync_to_master st now (.ok a)).1.last_sync_result = some a ∧
    (sync_to_master st now (.ok a)).1.last_sync_time = some now :=
  ⟨rfl, rfl, rfl, rfl, rfl, rfl⟩

/-! ### Index lemmas for the coordinator -/

theorem assocLookup_cons (e : List Char × SyncRecord)
    (rest : List (List Char × SyncRecord)) (k : List Char) :
    assocLookup (e :: rest) k =
      if e.1 = k then some e.2 else assocLookup rest k := by
  unfold assocLookup
  rw [List.find?_cons]
  by_cases he : e.1 = k
  · simp [he]
  · simp [he]

theorem assocLookup_map_replace (l : List (List Char × SyncRecord))
    (k : List Char) (v : SyncRecord) (hk : k ∈ l.map Prod.fst) :
    assocLookup (l.map fun e => if e.1 = k then (k, v) else e) k = some v := by
  induction l with
  | nil => simp at hk
  | cons e rest ih =>
      simp only [List.map_cons, List.mem_cons] at hk
      by_cases he : e.1 = k
      · simp [assocLookup_cons, he]
      · have hk2 : k ∈ rest.map Prod.fst := by
          rcases hk with hk | hk
          · exact absurd hk.symm he
          · exact hk
        rw [List.map_cons, if_neg he, assocLookup_cons, if_neg he]
        exact ih hk2

theorem assocLookup_append_single (l : List (List Char × SyncRecord))
    (k : List Char) (v : SyncRecord) (hk : ∀ e ∈ l, e.1 ≠ k) :
    assocLookup (l ++ [(k, v)]) k = some v := by
  induction l with
  | nil => simp [assocLookup_cons]
  | cons e rest ih =>
      rw [List.cons_append, assocLookup_cons,
        if_neg (hk e (List.mem_cons_self e rest))]
      exact ih fun b hb => hk b (List.mem_cons_of_mem e hb)

theorem assocLookup_update_self (l : List (List Char × SyncRecord))
    (k : List Char) (v : SyncRecord) :
    assocLookup (assocUpdate l k v) k = some v := by
  unfold assocUpdate
  split
  · next hk => exact assocLookup_map_replace l k v hk
  · next hk =>
      apply assocLookup_append_single
      intro e hel heq
      exact hk (List.mem_map.2 ⟨e, hel, heq⟩)

theorem assocUpdate_keys (l : List (List Char × SyncRecord)) (k : List Char)
    (v : SyncRecord) :
    (assocUpdate l k v).map Prod.fst =
      if k ∈ l.map Prod.fst then l.map Prod.fst
      else l.map Prod.fst ++ [k] := by
  unfold assocUpdate
  split
  · next hk =>
      rw [List.map_map]
      apply List.map_congr_left
      intro e _
      by_cases he : e.1 = k
      · simp [Function.comp, he]
      · simp [Function.comp, he]
  · next hk => simp

/-- Invariant of a sweep-free coordinator: distinct slave list, distinct
index keys, and the keys are exactly the listed slaves. -/
def IngestInv (st : MasterState) : Prop :=
  st.slaves.Nodup ∧ (st.synced_data.map Prod.fst).Nodup ∧
    (∀ s, s ∈ st.synced_data.map Prod.fst ↔ s ∈ st.slaves)

theorem ingest_preserves_inv {st : MasterState} (sid d ts : List Char)
    (h : IngestInv st) :
    IngestInv (handle_slave_sync st sid d ts (.ok ())).1 := by
  obtain ⟨h1, h2, h3⟩ := h
  have hkeys := assocUpdate_keys st.synced_data sid ⟨ts, d,
    st.data_directory ++ "/".data ++
      ("sync_".data ++ sid ++ "_".data ++ ts ++ ".json".data)⟩
  by_cases hs : sid ∈ st.slaves
  · have hk : sid ∈ st.synced_data.map Prod.fst := (h3 sid).2 hs
    refine ⟨?_, ?_, ?_⟩
    · show (if sid ∈ st.slaves then st.slaves
        else st.slaves ++ [sid]).Nodup
      rw [if_pos hs]; exact h1
    · show ((assocUpdate st.synced_data sid _).map Prod.fst).Nodup
      rw [hkeys, if_pos hk]; exact h2
    · intro s
      show s ∈ (assocUpdate st.synced_data sid _).map Prod.fst ↔
        s ∈ (if sid ∈ st.slaves then st.slaves else st.slaves ++ [sid])
      rw [hkeys, if_pos hk, if_pos hs]; exact h3 s
  · have hk : sid ∉ st.synced_data.map Prod.fst := fun hx => hs ((h3 sid).1 hx)
    refine ⟨?_, ?_, ?_⟩
    · show (if sid ∈ st.slaves then st.slaves
        else st.slaves ++ [sid]).Nodup
      rw [if_neg hs]
      simp [List.nodup_append, h1, List.disjoint_singleton, hs]
    · show ((assocUpdate st.synced_data sid _).map Prod.fst).Nodup
      rw [hkeys, if_neg hk]
      simp [List.nodup_append, h2, List.disjoint_singleton, hk]
    · intro s
      show s ∈ (assocUpdate st.synced_data sid _).map Prod.fst ↔
        s ∈ (if sid ∈ st.slaves then st.slaves else st.slaves ++ [sid])
      rw [hkeys, if_neg hk, if_neg hs]
      simp [List.mem_append, h3 s]

theorem applySyncs_inv : ∀ (ops : List (List Char × List Char × List Char))
    (st : MasterState), IngestInv st → IngestInv (applySyncs ops st) := by
  intro ops
  induction ops with
  | nil => intro st h; exact h
  | cons op rest ih =>
      intro st h
      exact ih _ (ingest_preserves_inv op.1 op.2.1 op.2.2 h)

theorem applySyncs_slaves_mem :
    ∀ (ops : List (List Char × List Char × List Char)) (st : MasterState)
      (s : List Char),
      s ∈ (applySyncs ops st).slaves ↔
        s ∈ st.slaves ∨ s ∈ ops.map fun op => op.1 := by
  intro ops
  induction ops with
  | nil => intro st s; simp [applySyncs]
  | cons op rest ih =>
      intro st s
      have hstep : applySyncs (op :: rest) st =
          applySyncs rest (handle_slave_sync st op.1 op.2.1 op.2.2 (.ok ())).1 :=
        rfl
      rw [hstep, ih]
      have hsl : (handle_slave_sync st op.1 op.2.1 op.2.2 (.ok ())).1.slaves =
          if op.1 ∈ st.slaves then st.slaves else st.slaves ++ [op.1] := rfl
      rw [hsl]
      by_cases hin : op.1 ∈ st.slaves
      · rw [if_pos hin]
        simp only [List.map_cons, List.mem_cons]
        constructor
        · rintro (h | h)
          · exact Or.inl h
          · exact Or.inr (Or.inr h)
        · rintro (h | rfl | h)
          · exact Or.inl h
          · exact Or.inl hin
          · exact Or.inr h
      · rw [if_neg hin]
        simp only [List.mem_append, List.mem_cons, List.not_mem_nil,
          or_false, List.map_cons]
        constructor
        · rintro ((h | rfl) | h)
          · exact Or.inl h
          · exact Or.inr (Or.inl rfl)
          · exact Or.inr (Or.inr h)
        · rintro (h | rfl | h)
          · exact Or.inl (Or.inl h)
          · exact Or.inl (Or.inr rfl)
          · exact Or.inr h

/-- C7: after any sequence of successful ingests from a fresh
coordinator, the slave list and the index keys are duplicate-free, both
contain exactly the distinct slave_ids ingested, the length of
`get_synced_slaves` is the number of distinct slave_ids, and an ingest
for an already-known slave_id overwrites its record with exactly the new
one (no merging). -/
theorem c7_one_record_per_slave (dir : List Char)
    (ops : List (List Char × List Char × List Char)) :
    (applySyncs ops (initMaster dir)).slaves.Nodup ∧
    ((applySyncs ops (initMaster dir)).synced_data.map Prod.fst).Nodup ∧
    (∀ s, s ∈ get_synced_slaves (applySyncs ops (initMaster dir)) ↔
      s ∈ ops.map fun op => op.1) ∧
    (∀ s, s ∈ (applySyncs ops (initMaster dir)).synced_data.map Prod.fst ↔
      s ∈ ops.map fun op => op.1) ∧
    (get_synced_slaves (applySyncs ops (initMaster dir))).length =
      (ops.map fun op => op.1).toFinset.card ∧
    (∀ (st : MasterState) (sid d ts : List Char),
      get_slave_data (handle_slave_sync st sid d ts (.ok ())).1 sid =
        some ⟨ts, d, st.data_directory ++ "/".data ++
          ("sync_".data ++ sid ++ "_".data ++ ts ++ ".json".data)⟩) := by
  have hinv0 : IngestInv (initMaster dir) :=
    ⟨List.nodup_nil, List.nodup_nil, by intro s; simp [initMaster]⟩
  obtain ⟨h1, h2, h3⟩ := applySyncs_inv ops (initMaster dir) hinv0
  have hmem : ∀ s, s ∈ (applySyncs ops (initMaster dir)).slaves ↔
      s ∈ ops.map fun op => op.1 := by
    intro s
    rw [applySyncs_slaves_mem]
    simp [initMaster]
  refine ⟨h1, h2, hmem, fun s => (h3 s).trans (hmem s), ?_, ?_⟩
  · show (applySyncs ops (initMaster dir)).slaves.length =
      (ops.map fun op => op.1).toFinset.card
    rw [← List.toFinset_card_of_nodup h1]
    congr 1
    ext a
    simp only [List.mem_toFinset]
    exact hmem a
  · intro st sid d ts
    exact assocLookup_update_self st.synced_data sid _

/-! ### Retention-sweep lemmas -/

theorem evictFirst_sublist (l : List (List Char × SyncRecord))
    (p : List Char) : (evictFirst l p).Sublist l := by
  induction l with
  | nil => exact List.Sublist.refl []
  | cons e rest ih =>
      unfold evictFirst
      split
      · exact List.sublist_cons_self e rest
      · exact ih.cons₂ e

/-- Under distinct backing paths, eviction removes exactly the entries
pointing at the deleted file. -/
theorem mem_evictFirst_iff {l : List (List Char × SyncRecord)}
    {p : List Char} (hnd : (l.map fun e => e.2.file_path).Nodup)
    (e : List Char × SyncRecord) :
    e ∈ evictFirst l p ↔ e ∈ l ∧ e.2.file_path ≠ p := by
  induction l with
  | nil => simp [evictFirst]
  | cons a rest ih =>
      simp only [List.map_cons, List.nodup_cons] at hnd
      unfold evictFirst
      split
      · next ha =>
          constructor
          · intro hmem
            refine ⟨List.mem_cons_of_mem a hmem, ?_⟩
            intro hp
            exact hnd.1 (ha ▸ hp ▸ List.mem_map.2 ⟨e, hmem, rfl⟩)
          · rintro ⟨hmem, hp⟩
            rcases List.mem_cons.1 hmem with rfl | hmem
            · exact absurd ha hp
            · exact hmem
      · next ha =>
          rw [List.mem_cons, ih hnd.2, List.mem_cons]
          constructor
          · rintro (rfl | ⟨hmem, hp⟩)
            · exact ⟨Or.inl rfl, ha⟩
            · exact ⟨Or.inr hmem, hp⟩
          · rintro ⟨rfl | hmem, hp⟩
            · exact Or.inl rfl
            · exact Or.inr ⟨hmem, hp⟩

theorem evictFirst_paths_nodup {l : List (List Char × SyncRecord)}
    {p : List Char} (hnd : (l.map fun e => e.2.file_path).Nodup) :
    ((evictFirst l p).map fun e => e.2.file_path).Nodup :=
  ((evictFirst_sublist l p).map _).nodup hnd

/-- Full characterization of one pass of the `clean_old_data` file loop,
for well-formed file names and distinct backing paths: it never aborts,
deletes exactly the files below the cutoff, counts them, and evicts
exactly the index entries whose backing file it deleted. -/
theorem cleanLoop_spec (dir cutoff : List Char) :
    ∀ (files : List (List Char)) (sd : List (List Char × SyncRecord)),
      (∀ f ∈ files, wfSyncName f = true) →
      ((sd.map fun e => e.2.file_path).Nodup) →
      (cleanLoop dir cutoff files sd).ok = true ∧
      (cleanLoop dir cutoff files sd).files =
        files.filter (fun f => !delPred cutoff f) ∧
      (cleanLoop dir cutoff files sd).deleted =
        (files.filter (delPred cutoff)).length ∧
      (∀ e, e ∈ (cleanLoop dir cutoff files sd).sd ↔
        e ∈ sd ∧ ∀ f ∈ files, delPred cutoff f = true →
          e.2.file_path ≠ dir ++ "/".data ++ f) := by
  intro files
  induction files with
  | nil =>
      intro sd _ _
      refine ⟨rfl, rfl, rfl, ?_⟩
      intro e
      simp [cleanLoop]
  | cons f rest ih =>
      intro sd hwf hnd
      have hwfrest : ∀ g ∈ rest, wfSyncName g = true :=
        fun g hg => hwf g (List.mem_cons_of_mem f hg)
      unfold cleanLoop
      by_cases hsw : (startsWithL "sync_".data f &&
          endsWithL ".json".data f) = true
      · rw [if_pos hsw]
        have hsome : ((splitOnChar '_' f).get? 2).isSome = true := by
          have := hwf f (List.mem_cons_self f rest)
          unfold wfSyncName at this
          rw [hsw] at this
          simpa using this
        split
        · next heq => rw [heq] at hsome; simp at hsome
        · next tok heq =>
          by_cases hlt : lexLt tok cutoff = true
          · have hdp : delPred cutoff f = true := by
              unfold delPred
              rw [hsw, heq]
              simpa using hlt
            rw [if_pos hlt]
            obtain ⟨hok, hfiles, hdel, hsd⟩ := ih
              (evictFirst sd (dir ++ "/".data ++ f)) hwfrest
              (evictFirst_paths_nodup hnd)
            refine ⟨hok, ?_, ?_, ?_⟩
            · rw [List.filter_cons]
              simp only [hdp, Bool.not_true, Bool.false_eq_true, if_neg,
                if_false]
              exact hfiles
            · rw [List.filter_cons]
              simp only [hdp, if_pos, if_true, List.length_cons]
              rw [hdel]
            · intro e
              rw [hsd e, mem_evictFirst_iff hnd e]
              constructor
              · rintro ⟨⟨hmem, hpne⟩, hrest⟩
                refine ⟨hmem, ?_⟩
                intro g hg hdg
                rcases List.mem_cons.1 hg with rfl | hg
                · exact hpne
                · exact hrest g hg hdg
              · rintro ⟨hmem, hall⟩
                exact ⟨⟨hmem, hall f (List.mem_cons_self f rest) hdp⟩,
                  fun g hg hdg => hall g (List.mem_cons_of_mem f hg) hdg⟩
          · have hdp : delPred cutoff f = false := by
              unfold delPred
              rw [hsw, heq]
              simpa using hlt
            rw [if_neg hlt]
            obtain ⟨hok, hfiles, hdel, hsd⟩ := ih sd hwfrest hnd
            refine ⟨hok, ?_, ?_, ?_⟩
            · rw [List.filter_cons]
              simp only [hdp, Bool.not_false, if_pos, if_true]
              rw [hfiles]
            · rw [List.filter_cons]
              simp only [hdp, Bool.false_eq_true, if_neg, if_false]
              exact hdel
            · intro e
              rw [hsd e]
              constructor
              · rintro ⟨hmem, hrest⟩
                refine ⟨hmem, ?_⟩
                intro g hg hdg
                rcases List.mem_cons.1 hg with rfl | hg
                · exact absurd hdg (by simp [hdp])
                · exact hrest g hg hdg
              · rintro ⟨hmem, hall⟩
                exact ⟨hmem, fun g hg hdg =>
                  hall g (List.mem_cons_of_mem f hg) hdg⟩
      · rw [if_neg hsw]
        have hswf : (startsWithL "sync_".data f &&
            endsWithL ".json".data f) = false := by
          cases h : (startsWithL "sync_".data f && endsWithL ".json".data f)
          · rfl
          · exact absurd h hsw
        have hdp : delPred cutoff f = false := by
          unfold delPred
          rw [hswf]
          rfl
        obtain ⟨hok, hfiles, hdel, hsd⟩ := ih sd hwfrest hnd
        refine ⟨hok, ?_, ?_, ?_⟩
        · rw [List.filter_cons]
          simp only [hdp, Bool.not_false, if_pos, if_true]
          rw [hfiles]
        · rw [List.filter_cons]
          simp only [hdp, Bool.false_eq_true, if_neg, if_false]
          exact hdel
        · intro e
          rw [hsd e]
          constructor
          · rintro ⟨hmem, hrest⟩
            refine ⟨hmem, ?_⟩
            intro g hg hdg
            rcases List.mem_cons.1 hg with rfl | hg
            · exact absurd hdg (by simp [hdp])
            · exact hrest g hg hdg
          · rintro ⟨hmem, hall⟩
            exact ⟨hmem, fun g hg hdg =>
              hall g (List.mem_cons_of_mem f hg) hdg⟩

/-- C8, claim as stated is false: with the clock fixed at 2023-10-12, a
snapshot file written the same day has date token `"20231012"`, which is
not strictly below the cutoff `"20231012"`, so `clean_old_data(0)`
deletes nothing — it does not remove all existing snapshot files. -/
theorem c8_retention_counterexample :
    (clean_old_data
      (handle_slave_sync (initMaster "d".data) "s1".data "x".data
        "20231012_120000".data (.ok ())).1 ⟨2023, 10, 12⟩ 0).1.files =
      ["sync_s1_20231012_120000.json".data] ∧
    (clean_old_data
      (handle_slave_sync (initMaster "d".data) "s1".data "x".data
        "20231012_120000".data (.ok ())).1 ⟨2023, 10, 12⟩ 0).2 = 0 ∧
    get_slave_data (clean_old_data
      (handle_slave_sync (initMaster "d".data) "s1".data "x".data
        "20231012_120000".data (.ok ())).1 ⟨2023, 10, 12⟩ 0).1 "s1".data ≠
      none := by
  refine ⟨by decide, by decide, by decide⟩

/-- C8 amended: with a fixed clock, `clean_old_data(0)` removes exactly
the snapshot files whose embedded date token is lexicographically below
the current date — files stamped with the current date survive — and it
evicts exactly the in-memory index entries whose backing file it just
deleted (entries pointing at surviving files stay), assuming well-formed
snapshot file names and distinct backing paths. -/
theorem c8_retention_sweep_spec (st : MasterState) (now : Date)
    (hwf : ∀ f ∈ st.files, wfSyncName f = true)
    (hnd : (st.synced_data.map fun e => e.2.file_path).Nodup) :
    (clean_old_data st now 0).1.slaves = st.slaves ∧
    (clean_old_data st now 0).1.files =
      st.files.filter (fun f => !delPred (fmtDate now) f) ∧
    (clean_old_data st now 0).2 =
      (st.files.filter (delPred (fmtDate now))).length ∧
    (∀ e, e ∈ (clean_old_data st now 0).1.synced_data ↔
      e ∈ st.synced_data ∧
        ∀ f ∈ st.files, delPred (fmtDate now) f = true →
          e.2.file_path ≠ st.data_directory ++ "/".data ++ f) := by
  obtain ⟨hok, hfiles, hdel, hsd⟩ := cleanLoop_spec st.data_directory
    (fmtDate now) st.files st.synced_data hwf hnd
  refine ⟨rfl, hfiles, ?_, hsd⟩
  show (if (cleanLoop st.data_directory (fmtDate now) st.files
      st.synced_data).ok = true
    then (cleanLoop st.data_directory (fmtDate now) st.files
      st.synced_data).deleted
    else 0) = _
  rw [hok, if_pos rfl]
  exact hdel

theorem c8_retention_sweep_spec_witness :
    (clean_old_data
      ⟨"d".data,
        [("s1".data, ⟨"20230101_000000".data, "x".data,
          "d/sync_s1_20230101_000000.json".data⟩)],
        ["s1".data], ["sync_s1_20230101_000000.json".data]⟩
      ⟨2023, 1, 2⟩ 0).1.files = [] ∧
    (clean_old_data
      ⟨"d".data,
        [("s1".data, ⟨"20230101_000000".data, "x".data,
          "d/sync_s1_20230101_000000.json".data⟩)],
        ["s1".data], ["sync_s1_20230101_000000.json".data]⟩
      ⟨2023, 1, 2⟩ 0).2 = 1 := by
  obtain ⟨-, h2, h3, -⟩ := c8_retention_sweep_spec
    ⟨"d".data,
      [("s1".data, ⟨"20230101_000000".data, "x".data,
        "d/sync_s1_20230101_000000.json".data⟩)],
      ["s1".data], ["sync_s1_20230101_000000.json".data]⟩
    ⟨2023, 1, 2⟩ (by decide) (by decide)
  constructor
  · rw [h2]; decide
  · rw [h3]; decide

/-! ### Reachability invariant for C10 -/

theorem cleanLoop_sd_sublist (dir cutoff : List Char) :
    ∀ (files : List (List Char)) (sd : List (List Char × SyncRecord)),
      (cleanLoop dir cutoff files sd).sd.Sublist sd := by
  intro files
  induction files with
  | nil => intro sd; exact List.Sublist.refl sd
  | cons f rest ih =>
      intro sd
      unfold cleanLoop
      split
      · split
        · exact List.Sublist.refl sd
        · split
          · exact (ih (evictFirst sd _)).trans (evictFirst_sublist sd _)
          · exact ih sd
      · exact ih sd

/-- Invariant preserved by all coordinator transitions: distinct slave
list, distinct index keys, keys contained in the slave list. -/
def WeakInv (st : MasterState) : Prop :=
  st.slaves.Nodup ∧ (st.synced_data.map Prod.fst).Nodup ∧
    ∀ k ∈ st.synced_data.map Prod.fst, k ∈ st.slaves

theorem weakInv_ingest {st : MasterState} (sid d ts : List Char)
    (writeRes : Except (List Char) Unit) (h : WeakInv st) :
    WeakInv (handle_slave_sync st sid d ts writeRes).1 := by
  obtain ⟨h1, h2, h3⟩ := h
  cases writeRes with
  | error e => exact ⟨h1, h2, h3⟩
  | ok u =>
      cases u
      have hkeys := assocUpdate_keys st.synced_data sid ⟨ts, d,
        st.data_directory ++ "/".data ++
          ("sync_".data ++ sid ++ "_".data ++ ts ++ ".json".data)⟩
      have hsl : (handle_slave_sync st sid d ts (.ok ())).1.slaves =
          if sid ∈ st.slaves then st.slaves else st.slaves ++ [sid] := rfl
      have hsup : ∀ k ∈ st.slaves,
          k ∈ (handle_slave_sync st sid d ts (.ok ())).1.slaves := by
        intro k hk
        rw [hsl]
        split
        · exact hk
        · exact List.mem_append_left _ hk
      have hsid : sid ∈ (handle_slave_sync st sid d ts (.ok ())).1.slaves := by
        rw [hsl]
        split
        · next hin => exact hin
        · exact List.mem_append_right _ (List.mem_singleton.2 rfl)
      refine ⟨?_, ?_, ?_⟩
      · rw [hsl]
        split
        · exact h1
        · next hin =>
            simp [List.nodup_append, h1, List.disjoint_singleton, hin]
      · show ((assocUpdate st.synced_data sid _).map Prod.fst).Nodup
        rw [hkeys]
        split
        · exact h2
        · next hk =>
            simp [List.nodup_append, h2, List.disjoint_singleton, hk]
      · show ∀ k ∈ (assocUpdate st.synced_data sid _).map Prod.fst, _
        rw [hkeys]
        split
        · intro k hk
          exact hsup k (h3 k hk)
        · intro k hk
          rcases List.mem_append.1 hk with hk | hk
          · exact hsup k (h3 k hk)
          · rw [List.mem_singleton.1 hk]
            exact hsid

theorem weakInv_clean {st : MasterState} (now : Date) (days : Nat)
    (h : WeakInv st) : WeakInv (clean_old_data st now days).1 := by
  obtain ⟨h1, h2, h3⟩ := h
  have hsub := cleanLoop_sd_sublist st.data_directory
    (fmtDate (subDays now days)) st.files st.synced_data
  refine ⟨h1, (hsub.map Prod.fst).nodup h2, ?_⟩
  intro k hk
  exact h3 k ((hsub.map Prod.fst).subset hk)

theorem reach_weakInv : ∀ {st : MasterState}, Reach st → WeakInv st := by
  intro st h
  induction h with
  | init dir => exact ⟨List.nodup_nil, List.nodup_nil, by simp [initMaster]⟩
  | sync sid d ts ok _ ih => exact weakInv_ingest sid d ts ok ih
  | sweep now days _ ih => exact weakInv_clean now days ih

/-- C10: the retention sweep never touches the slave list (only the
synced-data index), so after a sweep `get_synced_slaves` can name a
slave for which `get_slave_data` is `None` (demonstrated on a reachable
state), and in every reachable state the report satisfies
`synced_data_count ≤ total_slaves`. -/
theorem c10_sweep_slaves_invariant :
    (∀ (st : MasterState) (now : Date) (days : Nat),
      (clean_old_data st now days).1.slaves = st.slaves) ∧
    (∀ st : MasterState, Reach st →
      (generate_sync_report st).synced_data_count ≤
        (generate_sync_report st).total_slaves) ∧
    (get_synced_slaves (clean_old_data
        (handle_slave_sync (initMaster "d".data) "s1".data "x".data
          "20230101_000000".data (.ok ())).1 ⟨2023, 1, 2⟩ 0).1 = ["s1".data] ∧
      get_slave_data (clean_old_data
        (handle_slave_sync (initMaster "d".data) "s1".data "x".data
          "20230101_000000".data (.ok ())).1 ⟨2023, 1, 2⟩ 0).1 "s1".data =
        none) := by
  refine ⟨fun st now days => rfl, ?_, by decide, by decide⟩
  intro st hr
  obtain ⟨h1, h2, h3⟩ := reach_weakInv hr
  show st.synced_data.length ≤ st.slaves.length
  calc st.synced_data.length
      = (st.synced_data.map Prod.fst).length := (List.length_map _ _).symm
    _ = (st.synced_data.map Prod.fst).toFinset.card :=
        (List.toFinset_card_of_nodup h2).symm
    _ ≤ st.slaves.toFinset.card := by
        apply Finset.card_le_card
        intro a ha
        exact List.mem_toFinset.2 (h3 a (List.mem_toFinset.1 ha))
    _ ≤ st.slaves.length := List.toFinset_card_le _

theorem c10_sweep_slaves_invariant_witness :
    (generate_sync_report (initMaster "d".data)).synced_data_count ≤
      (generate_sync_report (initMaster "d".data)).total_slaves :=
  c10_sweep_slaves_invariant.2.1 (initMaster "d".data) (Reach.init "d".data)

end RagChat
